import Mathlib

/-
Verification of the crawl-and-extract pipeline of articles_spider.py.

The Python source is shallowly embedded: pure string manipulation is
translated to executable functions on List Char / String, stateful code
(filesystem, done markers) to explicit state passing, and calls into
external libraries (requests, BeautifulSoup, markdownify, urljoin) to
oracle parameters supplied by the caller.  Character classes originating
in Python regular expressions are restricted to their ASCII portion.
-/

namespace ArticlesSpider

/-- Characters that `sanitize_filename` replaces with an underscore
(the regex character class in the first re.sub). -/
def illegalChar (c : Char) : Bool :=
  c == '\\' || c == '/' || c == ':' || c == '*' || c == '?' ||
  c == '\"' || c == '<' || c == '>' || c == '|'

/-- ASCII whitespace, the characters matched by the regex class backslash-s
and removed by the Python str.strip default. -/
def wsChar (c : Char) : Bool :=
  c == ' ' || c == '\t' || c == '\n' || c == '\r' ||
  c == '\x0b' || c == '\x0c'

/-- First re.sub of `sanitize_filename`: every illegal character becomes an
underscore. -/
def replaceIllegal (l : List Char) : List Char :=
  l.map (fun c => if illegalChar c then '_' else c)

/-- Remove trailing whitespace (the right half of Python str.strip). -/
def dropTrailWS (l : List Char) : List Char :=
  ((l.reverse).dropWhile wsChar).reverse

/-- Python str.strip: remove leading and trailing whitespace. -/
def stripChars (l : List Char) : List Char :=
  dropTrailWS (l.dropWhile wsChar)

/-- Python str.strip on a String. -/
def pyStrip (s : String) : String := String.mk (stripChars s.data)

/-- Second re.sub of `sanitize_filename`: collapse each maximal whitespace
run into one space.  The Bool flag records whether the previous input
character belonged to a whitespace run whose single space was already
emitted. -/
def collapseAux : Bool → List Char → List Char
  | _, [] => []
  | prevWs, c :: cs =>
    if wsChar c then
      if prevWs then collapseAux true cs else ' ' :: collapseAux true cs
    else c :: collapseAux false cs

/-- re.sub of a whitespace run by a single space, over the whole list. -/
def collapseWS (l : List Char) : List Char := collapseAux false l

/-- Python slice sanitized[:180], applied only when the string is longer
than 180 characters (the conditional in `sanitize_filename`). -/
def pyTrunc180 (l : List Char) : List Char :=
  if 180 < l.length then l.take 180 else l

/-- sanitize_filename on character lists: replace illegal characters,
strip, collapse whitespace, cap at 180 characters — in the order the
source performs them. -/
def sanitizeL (l : List Char) : List Char :=
  pyTrunc180 (collapseWS (stripChars (replaceIllegal l)))

/-- sanitize_filename from articles_spider.py (lines 89-92). -/
def sanitize_filename (name : String) : String := String.mk (sanitizeL name.data)

/-- Boolean predicate: no two adjacent whitespace characters. -/
def noDoubleWS : List Char → Bool
  | c1 :: c2 :: rest => (!(wsChar c1 && wsChar c2)) && noDoubleWS (c2 :: rest)
  | _ => true

/-- The default tag index URL baked into the source (BASE_TAG_URL). -/
def BASE_TAG_URL : String := "https://www.cnblogs.com/chuchengzhi/tag/"

/-- One attempt of ARTICLE_LINK_RE at the head of the list: the literal
segment /p/, then a maximal nonempty run of digits, then .html, then end of
string, a final newline (the regex dollar also matches there), or a hash.
Returns the digit run on success.  The digit class is the ASCII part of the
regex class. -/
def matchProbe : List Char → Option (List Char)
  | c1 :: c2 :: c3 :: rest =>
    if c1 = '/' ∧ c2 = 'p' ∧ c3 = '/' then
      let ds := rest.takeWhile Char.isDigit
      let rest1 := rest.dropWhile Char.isDigit
      if ds = [] then none
      else
        match rest1 with
        | d1 :: d2 :: d3 :: d4 :: d5 :: tail =>
          if d1 = '.' ∧ d2 = 'h' ∧ d3 = 't' ∧ d4 = 'm' ∧ d5 = 'l' then
            if tail = [] ∨ tail = ['\n'] ∨ tail.head? = some '#' then some ds else none
          else none
        | _ => none
    else none
  | _ => none

/-- re.search of ARTICLE_LINK_RE: try the pattern at each position from the
left, returning the first match's digit group. -/
def searchPat : List Char → Option (List Char)
  | [] => none
  | c :: cs =>
    match matchProbe (c :: cs) with
    | some ds => some ds
    | none => searchPat cs

/-- extract_article_id from articles_spider.py (lines 186-188). -/
def extract_article_id (url : String) : Option String :=
  (searchPat url.data).map String.mk

/-- is_article_link from articles_spider.py (lines 180-183): false for an
empty href, else whether the pattern occurs. -/
def is_article_link (href : String) : Bool :=
  if href = "" then false else (searchPat href.data).isSome

/-- Python str.startswith restricted to the two literal arguments used by
normalize_url. -/
def startsWithL (l p : List Char) : Bool := l.take p.length == p

/-- normalize_url from articles_spider.py (lines 169-174).  urljoin is the
external requests.compat.urljoin, supplied as an oracle. -/
def normalize_url (urljoin : String → String → String) (currentUrl href : String) : String :=
  if startsWithL href.data "http".data then href
  else if startsWithL href.data "//".data then "https:" ++ href
  else urljoin currentUrl href

/-- One visited listing page of get_article_links: its URL, the href
attributes of the anchors found inside the content scope, and the href
attributes produced by the fallback selector pass. -/
structure Page where
  url : String
  scopeHrefs : List String
  fallbackHrefs : List String

/-- Per-page link candidates of get_article_links (lines 202-217): the
content-scope anchors, each href stripped, normalized and filtered by
is_article_link; when that yields nothing, the fallback anchors with empty
hrefs dropped, normalized and filtered the same way. -/
def pageLinks (urljoin : String → String → String) (p : Page) : List String :=
  let primary := (p.scopeHrefs.map (fun h => normalize_url urljoin p.url (pyStrip h))).filter
      (fun u => is_article_link u)
  if primary.isEmpty then
    ((p.fallbackHrefs.filter (fun h => !(h == ""))).map
        (fun h => normalize_url urljoin p.url h)).filter (fun u => is_article_link u)
  else primary

/-- The accumulation step of get_article_links (lines 219-224): walk the
page's candidates, appending each one not yet in the seen set to the output
list.  The pair is (seen, all_links). -/
def addNewLinks (sa : List String × List String) (links : List String) :
    List String × List String :=
  links.foldl (fun sa u => if u ∈ sa.1 then sa else (u :: sa.1, sa.2 ++ [u])) sa

/-- get_article_links from articles_spider.py (lines 191-238) over the
sequence of listing pages its pagination loop visits. -/
def get_article_links (urljoin : String → String → String) (pages : List Page) : List String :=
  (pages.foldl (fun sa p => addNewLinks sa (pageLinks urljoin p)) ([], [])).2

/-- Deduplication keeping the first occurrence of each element, written as
the specification describes it, independently of the seen-set fold above. -/
def firstSeenDedup : List String → List String
  | [] => []
  | u :: rest => u :: firstSeenDedup (rest.filter (fun v => !(v == u)))
termination_by l => l.length
decreasing_by
  simp only [List.length_cons]
  exact Nat.lt_succ_of_le (List.length_filter_le _ rest)

/-- Little-endian decimal digit characters of n, with explicit fuel so the
definition is structural and evaluates inside the kernel. -/
def decDigitsAux : Nat → Nat → List Char
  | 0, _ => []
  | fuel + 1, n => if n = 0 then [] else Char.ofNat (48 + n % 10) :: decDigitsAux fuel (n / 10)

/-- Python str(n) for a natural number. -/
def decRepr (n : Nat) : List Char :=
  if n = 0 then ['0'] else (decDigitsAux n n).reverse

/-- Decoder of little-endian digit characters, the left inverse certifying
that decRepr is injective. -/
def valNat : List Char → Nat
  | [] => 0
  | c :: r => (c.toNat - 48) + 10 * valNat r

/-- The i-th path tried by the collision loop of save_article_to_markdown:
the original path for i = 0, then base (i) with the extension re-attached,
exactly the f-string on line 348. -/
def mdCandidate (base ext : List Char) (i : Nat) : List Char :=
  if i = 0 then base ++ ext
  else base ++ ' ' :: '(' :: (decRepr i ++ ')' :: ext)

/-- The while-loop of save_article_to_markdown (lines 346-349) with fuel:
keep incrementing the index while the candidate path exists. -/
def resolveAux (paths : List (List Char)) (base ext : List Char) : Nat → Nat → List Char
  | 0, i => mdCandidate base ext i
  | fuel + 1, i =>
    if mdCandidate base ext i ∈ paths then resolveAux paths base ext fuel (i + 1)
    else mdCandidate base ext i

/-- Collision resolution over a finite set of existing paths.  Fuel
length + 1 always suffices: some candidate among the first length + 1 is
free, so the fuel is never exhausted. -/
def resolvePath (paths : List (List Char)) (base ext : List Char) : List Char :=
  resolveAux paths base ext (paths.length + 1) 0

/-- The output tree under the root directory: existing files as a list of
(path, content) pairs, most recently written first. -/
structure FS where
  files : List (List Char × List Char)
deriving DecidableEq

def fsPaths (fs : FS) : List (List Char) := fs.files.map Prod.fst

def readFile (fs : FS) (p : List Char) : Option (List Char) :=
  (fs.files.find? (fun e => e.1 == p)).map Prod.snd

/-- The " [p<id>]" filename suffix (line 341); Python truthiness makes it
empty for a missing or empty article id. -/
def mdSuffix (articleId : Option (List Char)) : List Char :=
  match articleId with
  | some id => if id = [] then [] else ' ' :: '[' :: 'p' :: (id ++ [']'])
  | none => []

/-- Extension component of the target path.  os.path.splitext recovers
(base, ".md") because the built path always ends in ".md" and "md" holds no
dot. -/
def mdExtL : List Char := ".md".data

/-- The pre-collision path base of save_article_to_markdown (lines
339-345): root/tag(sanitized)/title(sanitized, or untitled)[ suffix], the
".md" extension split off. -/
def articleBase (root tagName title : List Char) (articleId : Option (List Char)) : List Char :=
  let fname := if sanitizeL title = [] then "untitled".data else sanitizeL title
  root ++ '/' :: (sanitizeL tagName ++ '/' :: (fname ++ mdSuffix articleId))

/-- save_article_to_markdown from articles_spider.py (lines 338-353):
resolve a collision-free path against the existing files, then write the
content there.  Returns the new tree and the chosen path. -/
def save_article_to_markdown (fs : FS) (root tagName title content : List Char)
    (articleId : Option (List Char)) : FS × List Char :=
  let base := articleBase root tagName title articleId
  let path := resolvePath (fsPaths fs) base mdExtL
  (⟨(path, content) :: fs.files⟩, path)

/-- Per-tag mutable state: the article ids owning a .done marker file, and
the files on disk. -/
structure TagState where
  markers : List (List Char)
  fs : FS
deriving DecidableEq

inductive FetchOutcome
  | ok (title mdText : List Char)
  | fail
deriving DecidableEq

/-- The externally-determined fate of one article's processing: what
fetch_article_content produces (or that it raises), and whether the file
write succeeds. -/
structure ArticleEff where
  fetch : FetchOutcome
  saveOk : Bool
deriving DecidableEq

inductive StepResult
  | skipped
  | saved
  | failed
deriving DecidableEq

/-- The resume test of crawl_single_tag (lines 365-369): a marker is
consulted only when an article id was extracted. -/
def markerHit (st : TagState) (aid : Option String) : Bool :=
  match aid with
  | some id => st.markers.contains id.data
  | none => false

/-- The per-article body of crawl_single_tag (lines 362-382): resume check,
fetch, save, then marker creation, with any failure caught at the article
boundary leaving the state unchanged. -/
def processOne (resume : Bool) (root tagName : List Char) (st : TagState)
    (url : String) (eff : ArticleEff) : TagState × StepResult :=
  let aid := extract_article_id url
  if resume && markerHit st aid then (st, .skipped)
  else
    match eff.fetch with
    | .fail => (st, .failed)
    | .ok title mdText =>
      if eff.saveOk then
        let fs1 := (save_article_to_markdown st.fs root tagName title mdText
            (aid.map String.data)).1
        let markers1 := match aid with
          | some id => id.data :: st.markers
          | none => st.markers
        (⟨markers1, fs1⟩, .saved)
      else (st, .failed)

/-- One tag's unit of work as crawl_all sees it: the tag name and the
outcome of the listing retrieval — none models get_article_links raising a
fetch error, which crawl_single_tag does not catch. -/
structure TagJob where
  name : List Char
  listing : Option (List (String × ArticleEff))

def initTagState : TagState := ⟨[], ⟨[]⟩⟩

/-- crawl_single_tag (lines 356-382): a failed listing retrieval escapes
(none); otherwise every article is processed in order, each failure caught
at the article boundary. -/
def crawl_single_tag (resume : Bool) (root : List Char) (st0 : TagState) (job : TagJob) :
    Option TagState :=
  match job.listing with
  | none => none
  | some articles =>
    some (articles.foldl (fun st a => (processOne resume root job.name st a.1 a.2).1) st0)

/-- Outcome of crawl_all: which tags were attempted, which failures were
caught and logged at the tag level, and whether an exception escaped
crawl_all (aborting the run). -/
structure CrawlOutcome where
  attempted : List (List Char)
  loggedTagFailures : List (List Char)
  aborted : Option (List Char)

/-- The sequential branch of crawl_all (lines 397-399): a plain for loop
with no per-tag exception handler, so the first escaping failure aborts the
remaining tags. -/
def runSeqTags (resume : Bool) (root : List Char) : List TagJob → List (List Char) × Option (List Char)
  | [] => ([], none)
  | j :: rest =>
    match crawl_single_tag resume root initTagState j with
    | none => ([j.name], some j.name)
    | some _ =>
      let r := runSeqTags resume root rest
      (j.name :: r.1, r.2)

def tagJobFails (resume : Bool) (root : List Char) (j : TagJob) : Bool :=
  (crawl_single_tag resume root initTagState j).isNone

/-- crawl_all from articles_spider.py (lines 385-411): sequential loop when
threads is at most 1; otherwise a worker pool running every tag, each
failure caught around fut.result() and logged. -/
def crawl_all (threads : Nat) (resume : Bool) (root : List Char) (jobs : List TagJob) :
    CrawlOutcome :=
  if threads ≤ 1 then
    let r := runSeqTags resume root jobs
    ⟨r.1, [], r.2⟩
  else
    ⟨jobs.map TagJob.name, (jobs.filter (tagJobFails resume root)).map TagJob.name, none⟩

inductive AttemptOutcome
  | ok (status : Nat) (text : List Char)
  | transportFail
  | progError
deriving DecidableEq

inductive GetError
  | requestError
  | programmingError
deriving DecidableEq

/-- One attempt of HttpClient.get (lines 73-81): a transport exception
becomes RequestError, a status of at least 400 becomes RequestError, any
other exception in the body is a programming error, else the text returns. -/
def attemptGet : AttemptOutcome → Except GetError (List Char)
  | .transportFail => .error .requestError
  | .ok status text => if 400 ≤ status then .error .requestError else .ok text
  | .progError => .error .programmingError

/-- The tenacity policy on HttpClient.get (lines 69-72): the first argument
is the number of retries still allowed, the second the current attempt
number; only RequestError is retried, everything else is final, and an
exhausted budget re-raises the last error.  Returns the result and the
number of the attempt that produced it. -/
def retryAux (oracle : Nat → AttemptOutcome) : Nat → Nat → Except GetError (List Char) × Nat
  | 0, n => (attemptGet (oracle n), n)
  | fuel + 1, n =>
    match attemptGet (oracle n) with
    | .error .requestError => retryAux oracle fuel (n + 1)
    | r => (r, n)

/-- HttpClient.get under stop_after_attempt(3): attempt 1 plus at most two
retries. -/
def http_get (oracle : Nat → AttemptOutcome) : Except GetError (List Char) × Nat :=
  retryAux oracle 2 1

/-- html_to_markdown from articles_spider.py (lines 308-319).  The three
oracles model the external converters — markdownify with ATX headings and
the fixed bullet preference, markdownify with defaults, and the
BeautifulSoup text flattening — each returning none when it raises. -/
def html_to_markdown (mdAtx mdDefault soupText : String → Option String) (html : String) :
    String :=
  match mdAtx html with
  | some r => r
  | none =>
    match mdDefault html with
    | some r => r
    | none =>
      match soupText html with
      | some r => r
      | none => html

/-- A parsed JSON value as json.load produces it. -/
inductive JVal
  | jnull
  | jbool (b : Bool)
  | jnum (n : Int)
  | jstr (s : String)
  | jarr (xs : List JVal)
  | jdict (entries : List (String × JVal))

/-- Python truthiness on parsed JSON values. -/
def truthy : JVal → Bool
  | .jnull => false
  | .jbool b => b
  | .jnum n => !(n == 0)
  | .jstr s => !(s == "")
  | .jarr xs => !xs.isEmpty
  | .jdict es => !es.isEmpty

/-- dict.get: the value stored under the key, none when absent. -/
def dictGet (es : List (String × JVal)) (k : String) : Option JVal :=
  (es.find? (fun e => e.1 == k)).map Prod.snd

/-- How the configured override file was read: absent (or no path
configured), readable-but-unparseable or unreadable (the except branch), or
parsed to a JSON value. -/
inductive ConfigRead
  | noFile
  | readOrParseFail
  | parsed (v : JVal)

/-- The base_tag_url resolution of parse_args (lines 434-443).  pyStrFn is
Python's builtin str on the stored value, supplied as an oracle.  Returns
the resolved URL and whether the failure warning was logged. -/
def resolve_base_tag_url (pyStrFn : JVal → String) (r : ConfigRead) : String × Bool :=
  match r with
  | .noFile => (BASE_TAG_URL, false)
  | .readOrParseFail => (BASE_TAG_URL, true)
  | .parsed v =>
    match v with
    | .jdict es =>
      match dictGet es "base_tag_url" with
      | some w => if truthy w then (pyStrip (pyStrFn w), false) else (BASE_TAG_URL, false)
      | none => (BASE_TAG_URL, false)
    | _ => (BASE_TAG_URL, false)

/-- An occurrence of the article pattern inside a character list, stated
declaratively: some position carries /p/, a nonempty digit run ds, .html,
and then either the end, a lone final newline, or a hash. -/
def PatOccurs (l ds : List Char) : Prop :=
  ∃ pre suf, l = pre ++ '/' :: 'p' :: '/' :: (ds ++ '.' :: 'h' :: 't' :: 'm' :: 'l' :: suf)
    ∧ ds ≠ [] ∧ ds.all Char.isDigit
    ∧ (suf = [] ∨ suf = ['\n'] ∨ (∃ r, suf = '#' :: r))

/-- a occurs contiguously inside l. -/
def isInfixL (a l : List Char) : Prop := ∃ s t, l = s ++ a ++ t

/-- Soundness of a done marker: every marked article id is witnessed by a
saved file whose name carries the id suffix. -/
def MarkerInv (st : TagState) : Prop :=
  ∀ id ∈ st.markers, ∃ p, p ∈ fsPaths st.fs ∧ isInfixL (mdSuffix (some id)) p

end ArticlesSpider

namespace ArticlesSpider

theorem length_dropWhile_le (p : Char → Bool) (l : List Char) :
    (l.dropWhile p).length ≤ l.length := by
  induction l with
  | nil => simp
  | cons a l ih => by_cases h : p a <;> simp [List.dropWhile, h] <;> omega

theorem mem_replaceIllegal (l : List Char) :
    ∀ c ∈ replaceIllegal l, illegalChar c = false := by
  intro c hc
  rcases List.mem_map.mp hc with ⟨d, _, hd⟩
  by_cases h : illegalChar d
  · simp [h] at hd; simp [← hd]; decide
  · simp [h] at hd; simpa [← hd] using h

theorem stripChars_sublist (l : List Char) : List.Sublist (stripChars l) l := by
  have h1 : List.Sublist (l.dropWhile wsChar) l := List.dropWhile_sublist _
  have h2 : List.Sublist ((l.dropWhile wsChar).reverse.dropWhile wsChar)
      (l.dropWhile wsChar).reverse := List.dropWhile_sublist _
  have h3 := h2.reverse
  simp only [List.reverse_reverse] at h3
  exact h3.trans h1

theorem mem_collapseAux (b : Bool) (l : List Char) :
    ∀ c ∈ collapseAux b l, c = ' ' ∨ c ∈ l := by
  induction l generalizing b with
  | nil => intro c hc; simp [collapseAux] at hc
  | cons a l ih =>
    intro c hc
    by_cases h : wsChar a
    · cases b with
      | true =>
        simp only [collapseAux, h, if_pos, if_true] at hc
        rcases ih true c hc with h' | h'
        · exact Or.inl h'
        · exact Or.inr (List.mem_cons_of_mem _ h')
      | false =>
        simp only [collapseAux, h, if_pos, if_false] at hc
        rcases List.mem_cons.mp hc with h' | h'
        · exact Or.inl h'
        · rcases ih true c h' with h'' | h''
          · exact Or.inl h''
          · exact Or.inr (List.mem_cons_of_mem _ h'')
    · simp only [collapseAux, h, if_neg, Bool.false_eq_true, if_false] at hc
      rcases List.mem_cons.mp hc with h' | h'
      · exact Or.inr (h' ▸ List.mem_cons_self a l)
      · rcases ih false c h' with h'' | h''
        · exact Or.inl h''
        · exact Or.inr (List.mem_cons_of_mem _ h'')

theorem collapseAux_ws_is_space (b : Bool) (l : List Char) :
    ∀ c ∈ collapseAux b l, wsChar c → c = ' ' := by
  induction l generalizing b with
  | nil => intro c hc; simp [collapseAux] at hc
  | cons a l ih =>
    intro c hc hw
    by_cases h : wsChar a
    · cases b with
      | true =>
        simp only [collapseAux, h, if_true] at hc
        exact ih true c hc hw
      | false =>
        simp only [collapseAux, h, if_true] at hc
        rcases List.mem_cons.mp hc with h' | h'
        · exact h'
        · exact ih true c h' hw
    · simp only [collapseAux, h, Bool.false_eq_true, if_false] at hc
      rcases List.mem_cons.mp hc with h' | h'
      · subst h'; simp [h] at hw
      · exact ih false c h' hw

theorem collapseAux_true_head (l : List Char) :
    ((collapseAux true l).head?).all (fun c => !wsChar c) := by
  induction l with
  | nil => simp [collapseAux]
  | cons a l ih =>
    by_cases h : wsChar a
    · simpa [collapseAux, h] using ih
    · simp [collapseAux, h]

theorem collapseAux_false_head (l : List Char) :
    (collapseAux false l).head? = l.head?.map (fun c => if wsChar c then ' ' else c) := by
  cases l with
  | nil => simp [collapseAux]
  | cons a l => by_cases h : wsChar a <;> simp [collapseAux, h]

theorem noDoubleWS_cons (a : Char) (l : List Char) :
    noDoubleWS (a :: l) =
      ((l.head?.all fun c => !(wsChar a && wsChar c)) && noDoubleWS l) := by
  cases l with
  | nil => simp [noDoubleWS]
  | cons b m => simp [noDoubleWS]

theorem noDoubleWS_collapseAux (b : Bool) (l : List Char) :
    noDoubleWS (collapseAux b l) := by
  induction l generalizing b with
  | nil => simp [collapseAux, noDoubleWS]
  | cons a l ih =>
    by_cases h : wsChar a
    · cases b with
      | true => simpa [collapseAux, h] using ih true
      | false =>
        simp only [collapseAux, h, if_true, Bool.false_eq_true, if_false]
        rw [noDoubleWS_cons, Bool.and_eq_true]
        refine ⟨?_, ih true⟩
        have hh := collapseAux_true_head l
        cases hc : (collapseAux true l).head? with
        | none => simp
        | some c =>
          rw [hc] at hh
          simp only [Option.all_some] at hh
          simp [hh]
    · simp only [collapseAux, h, Bool.false_eq_true, if_false]
      rw [noDoubleWS_cons, Bool.and_eq_true]
      refine ⟨?_, ih false⟩
      cases hc : (collapseAux false l).head? with
      | none => simp
      | some c => simp [h]

theorem collapseAux_eq_nil (b : Bool) (l : List Char) :
    collapseAux b l = [] → ∀ c ∈ l, wsChar c := by
  induction l generalizing b with
  | nil => intro _ c hc; simp at hc
  | cons a l ih =>
    intro h c hc
    by_cases hw : wsChar a
    · cases b with
      | true =>
        simp only [collapseAux, hw, if_true] at h
        rcases List.mem_cons.mp hc with h' | h'
        · exact h' ▸ hw
        · exact ih true h c h'
      | false => simp [collapseAux, hw] at h
    · simp [collapseAux, hw] at h

theorem getLast?_cons_ne_nil (a : Char) (l : List Char) (h : l ≠ []) :
    (a :: l).getLast? = l.getLast? := by
  cases l with
  | nil => exact absurd rfl h
  | cons b m => exact List.getLast?_cons_cons

theorem collapseAux_false_ne_nil (a : Char) (l : List Char) :
    collapseAux false (a :: l) ≠ [] := by
  by_cases h : wsChar a <;> simp [collapseAux, h]

theorem collapseAux_last (b : Bool) (l : List Char)
    (h : l.getLast?.all (fun c => !wsChar c)) :
    ((collapseAux b l).getLast?).all (fun c => !wsChar c) := by
  induction l generalizing b with
  | nil => simp [collapseAux]
  | cons a l ih =>
    by_cases hw : wsChar a
    · have hl : l ≠ [] := by
        intro hnil; subst hnil
        simp [List.getLast?, hw] at h
      have hlast : l.getLast?.all (fun c => !wsChar c) := by
        rwa [getLast?_cons_ne_nil a l hl] at h
      have hy := ih true hlast
      have hyne : collapseAux true l ≠ [] := by
        intro hnil
        have hall := collapseAux_eq_nil true l hnil
        cases hg : l.getLast? with
        | none => exact hl (List.getLast?_eq_none_iff.mp hg)
        | some c =>
          have hmem : c ∈ l.getLast? := Option.mem_def.mpr hg
          obtain ⟨hne, hc⟩ := List.mem_getLast?_eq_getLast hmem
          have hcl : c ∈ l := hc ▸ List.getLast_mem hne
          have hwc := hall c hcl
          rw [hg] at hlast
          simp only [Option.all_some] at hlast
          simp [hwc] at hlast
      cases b with
      | true => simpa [collapseAux, hw] using hy
      | false =>
        simp only [collapseAux, hw, if_true, Bool.false_eq_true, if_false]
        rwa [getLast?_cons_ne_nil ' ' _ hyne]
    · cases hl : l with
      | nil =>
        subst hl
        simp only [collapseAux, hw, Bool.false_eq_true, if_false]
        simpa [List.getLast?, hw] using h
      | cons x xs =>
        subst hl
        have hlast : (x :: xs).getLast?.all (fun c => !wsChar c) := by
          rwa [getLast?_cons_ne_nil a _ (by simp)] at h
        have hy := ih false hlast
        have hstep : collapseAux b (a :: x :: xs) = a :: collapseAux false (x :: xs) := by
          simp [collapseAux, hw]
        rw [hstep, getLast?_cons_ne_nil a _ (collapseAux_false_ne_nil x xs)]
        exact hy

theorem head?_dropWhile_not (p : Char → Bool) (l : List Char) :
    ((l.dropWhile p).head?).all (fun c => !p c) := by
  induction l with
  | nil => simp
  | cons a l ih =>
    by_cases h : p a
    · simpa [List.dropWhile, h] using ih
    · simp [List.dropWhile, h]

theorem getLast?_dropWhile_or (p : Char → Bool) (l : List Char) :
    l.dropWhile p = [] ∨ (l.dropWhile p).getLast? = l.getLast? := by
  induction l with
  | nil => simp
  | cons a l ih =>
    by_cases h : p a
    · rw [List.dropWhile_cons_of_pos h]
      by_cases hnil : l.dropWhile p = []
      · exact Or.inl hnil
      · right
        rcases ih with h' | h'
        · exact absurd h' hnil
        · have hln : l ≠ [] := by
            intro hn; subst hn; simp at hnil
          rw [h', getLast?_cons_ne_nil a l hln]
    · right; rw [List.dropWhile_cons_of_neg h]

theorem stripChars_head (l : List Char) :
    ((stripChars l).head?).all (fun c => !wsChar c) := by
  unfold stripChars dropTrailWS
  set m := l.dropWhile wsChar with hm
  rw [List.head?_reverse]
  rcases getLast?_dropWhile_or wsChar m.reverse with h | h
  · simp [h]
  · rw [h, List.getLast?_reverse]
    exact head?_dropWhile_not wsChar l

theorem stripChars_last (l : List Char) :
    ((stripChars l).getLast?).all (fun c => !wsChar c) := by
  unfold stripChars dropTrailWS
  rw [List.getLast?_reverse]
  exact head?_dropWhile_not wsChar _

theorem noDoubleWS_take (l : List Char) (n : Nat) (h : noDoubleWS l) :
    noDoubleWS (l.take n) := by
  induction l generalizing n with
  | nil => simp [noDoubleWS]
  | cons a l ih =>
    cases n with
    | zero => simp [noDoubleWS]
    | succ m =>
      rw [noDoubleWS_cons, Bool.and_eq_true] at h
      obtain ⟨h1, h2⟩ := h
      simp only [List.take_succ_cons]
      rw [noDoubleWS_cons, Bool.and_eq_true]
      refine ⟨?_, ih m h2⟩
      cases m with
      | zero => simp
      | succ k =>
        cases l with
        | nil => simp
        | cons b r => simpa using h1

theorem sanitizeL_eq_trunc (l : List Char) :
    sanitizeL l = pyTrunc180 (collapseWS (stripChars (replaceIllegal l))) := rfl

/-- C9: sanitize_filename replaces every path-illegal character with an
underscore, collapses whitespace runs to single spaces, strips leading
and trailing whitespace, and returns at most 180 characters with no
illegal character left.  The final conjunct records that the trailing
strip survives whenever the 180-character cap does not cut the string. -/
theorem sanitize_filename_spec (name : String) :
    ((sanitize_filename name).data.all (fun c => !illegalChar c))
    ∧ (sanitize_filename name).data.length ≤ 180
    ∧ ((sanitize_filename name).data.all (fun c => !wsChar c || (c == ' ')))
    ∧ noDoubleWS (sanitize_filename name).data
    ∧ (((sanitize_filename name).data.head?).all (fun c => !wsChar c))
    ∧ ((collapseWS (stripChars (replaceIllegal name.data))).length ≤ 180 →
        ((sanitize_filename name).data.getLast?).all (fun c => !wsChar c)) := by
  have hdata : (sanitize_filename name).data = sanitizeL name.data := rfl
  set r := replaceIllegal name.data with hr
  set s := stripChars r with hs
  set w := collapseWS s with hw
  have hsan : sanitizeL name.data = pyTrunc180 w := rfl
  have hsub : List.Sublist (pyTrunc180 w) w := by
    unfold pyTrunc180
    by_cases h : 180 < w.length
    · simp only [h, if_true]; exact List.take_sublist 180 w
    · simp only [h, if_false]; exact List.Sublist.refl w
  refine ⟨?_, ?_, ?_, ?_, ?_, ?_⟩
  · rw [hdata, hsan]
    refine List.all_eq_true.mpr ?_
    intro c hc
    have hcw : c ∈ w := hsub.mem hc
    rcases mem_collapseAux false s c hcw with h | h
    · subst h; decide
    · have hcr : c ∈ r := (stripChars_sublist r).mem h
      simp [mem_replaceIllegal name.data c hcr]
  · rw [hdata, hsan]
    unfold pyTrunc180
    by_cases h : 180 < w.length
    · simp [h]
    · simp only [h, if_false]; omega
  · rw [hdata, hsan]
    refine List.all_eq_true.mpr ?_
    intro c hc
    have hcw : c ∈ w := hsub.mem hc
    by_cases hws : wsChar c
    · have := collapseAux_ws_is_space false s c hcw hws
      subst this; simp
    · simp [hws]
  · rw [hdata, hsan]
    unfold pyTrunc180
    by_cases h : 180 < w.length
    · simp only [h, if_true]
      exact noDoubleWS_take w 180 (noDoubleWS_collapseAux false s)
    · simp only [h, if_false]
      exact noDoubleWS_collapseAux false s
  · rw [hdata, hsan]
    have hhead : (pyTrunc180 w).head? = w.head? ∨ (pyTrunc180 w).head? = none := by
      unfold pyTrunc180
      by_cases h : 180 < w.length
      · simp only [h, if_true]
        cases w with
        | nil => simp
        | cons a l => left; simp
      · simp [h]
    rcases hhead with h | h
    · rw [h, hw]
      unfold collapseWS
      rw [collapseAux_false_head]
      have hsh := stripChars_head r
      cases hc : s.head? with
      | none => simp [hc]
      | some c =>
        rw [hc] at hsh
        simp only [Option.all_some] at hsh
        simp only [Bool.not_eq_true'] at hsh
        simp [hc, hsh]
    · rw [h]; simp
  · intro hlen
    rw [hdata, hsan]
    have : pyTrunc180 w = w := by
      unfold pyTrunc180
      have : ¬ 180 < w.length := by omega
      simp [this]
    rw [this, hw]
    exact collapseAux_last false s (stripChars_last r)

/-- Witness: the trailing-strip conjunct of the sanitize theorem discharged
on a concrete title. -/
theorem sanitize_filename_spec_witness :
    ((sanitize_filename "a  b").data.getLast?).all (fun c => !wsChar c) :=
  (sanitize_filename_spec "a  b").2.2.2.2.2 (by decide)

theorem takeWhile_append_all (p : Char → Bool) (a b : List Char)
    (ha : a.all p) (hb : (b.head?).all (fun c => !p c)) :
    (a ++ b).takeWhile p = a ∧ (a ++ b).dropWhile p = b := by
  induction a with
  | nil =>
    cases b with
    | nil => simp
    | cons x xs =>
      simp only [List.head?_cons, Option.all_some, Bool.not_eq_true'] at hb
      have hx : ¬ p x = true := by simp [hb]
      simp only [List.nil_append]
      exact ⟨List.takeWhile_cons_of_neg hx, List.dropWhile_cons_of_neg hx⟩
  | cons x a ih =>
    simp only [List.all_cons, Bool.and_eq_true] at ha
    obtain ⟨hx, ha⟩ := ha
    obtain ⟨h1, h2⟩ := ih ha
    simp only [List.cons_append]
    rw [List.takeWhile_cons_of_pos hx, List.dropWhile_cons_of_pos hx]
    exact ⟨by rw [h1], h2⟩

theorem matchProbe_sound (l ds : List Char) (h : matchProbe l = some ds) :
    ∃ suf, l = '/' :: 'p' :: '/' :: (ds ++ '.' :: 'h' :: 't' :: 'm' :: 'l' :: suf)
      ∧ ds ≠ [] ∧ ds.all Char.isDigit
      ∧ (suf = [] ∨ suf = ['\n'] ∨ ∃ r, suf = '#' :: r) := by
  match l with
  | [] => simp [matchProbe] at h
  | [c1] => simp [matchProbe] at h
  | [c1, c2] => simp [matchProbe] at h
  | c1 :: c2 :: c3 :: rest =>
    simp only [matchProbe] at h
    split at h
    case isFalse => exact absurd h (by simp)
    case isTrue h123 =>
      obtain ⟨e1, e2, e3⟩ := h123
      subst e1; subst e2; subst e3
      split at h
      case isTrue => exact absurd h (by simp)
      case isFalse hne =>
        split at h
        case h_2 => exact absurd h (by simp)
        case h_1 d1 d2 d3 d4 d5 tail heq =>
          split at h
          case isFalse => exact absurd h (by simp)
          case isTrue hhtml =>
            obtain ⟨f1, f2, f3, f4, f5⟩ := hhtml
            subst f1; subst f2; subst f3; subst f4; subst f5
            split at h
            case isFalse => exact absurd h (by simp)
            case isTrue htail =>
              have hds : rest.takeWhile Char.isDigit = ds := by
                simpa using h
              refine ⟨tail, ?_, ?_, ?_, ?_⟩
              · have hsplit : rest.takeWhile Char.isDigit ++ rest.dropWhile Char.isDigit = rest :=
                  List.takeWhile_append_dropWhile ..
                rw [hds, heq] at hsplit
                rw [← hsplit]
              · rw [← hds]; exact hne
              · rw [← hds]
                refine List.all_eq_true.mpr ?_
                intro c hc
                exact List.mem_takeWhile_imp hc
              · rcases htail with h1 | h1 | h1
                · exact Or.inl h1
                · exact Or.inr (Or.inl h1)
                · right; right
                  cases tail with
                  | nil => simp at h1
                  | cons t ts =>
                    simp only [List.head?_cons, Option.some.injEq] at h1
                    exact ⟨ts, by rw [h1]⟩

theorem matchProbe_complete (ds suf : List Char) (hne : ds ≠ []) (hd : ds.all Char.isDigit)
    (hs : suf = [] ∨ suf = ['\n'] ∨ ∃ r, suf = '#' :: r) :
    matchProbe ('/' :: 'p' :: '/' :: (ds ++ '.' :: 'h' :: 't' :: 'm' :: 'l' :: suf)) = some ds := by
  have hb : (('.' :: 'h' :: 't' :: 'm' :: 'l' :: suf).head?).all (fun c => !Char.isDigit c) := by
    simp only [List.head?_cons, Option.all_some]
    decide
  obtain ⟨ht, hdrp⟩ := takeWhile_append_all Char.isDigit ds _ hd hb
  rcases hs with h | h | ⟨r, h⟩ <;> subst h <;> simp [matchProbe, ht, hdrp, hne]

theorem searchPat_sound (l ds : List Char) (h : searchPat l = some ds) : PatOccurs l ds := by
  induction l with
  | nil => simp [searchPat] at h
  | cons c cs ih =>
    rw [searchPat] at h
    cases hm : matchProbe (c :: cs) with
    | some ds0 =>
      rw [hm] at h
      simp only [Option.some.injEq] at h
      subst h
      obtain ⟨suf, hl, hne, hdig, hsuf⟩ := matchProbe_sound _ _ hm
      exact ⟨[], suf, by simpa using hl, hne, hdig, hsuf⟩
    | none =>
      rw [hm] at h
      obtain ⟨pre, suf, hl, hne, hdig, hsuf⟩ := ih h
      refine ⟨c :: pre, suf, ?_, hne, hdig, hsuf⟩
      simp [hl]

theorem searchPat_complete (l ds : List Char) (h : PatOccurs l ds) :
    (searchPat l).isSome := by
  obtain ⟨pre, suf, hl, hne, hdig, hsuf⟩ := h
  subst hl
  induction pre with
  | nil =>
    simp only [List.nil_append]
    rw [searchPat, matchProbe_complete ds suf hne hdig hsuf]
    rfl
  | cons c pre ih =>
    simp only [List.cons_append]
    rw [searchPat]
    cases hm : matchProbe (c :: (pre ++ '/' :: 'p' :: '/' ::
        (ds ++ '.' :: 'h' :: 't' :: 'm' :: 'l' :: suf))) with
    | some ds0 => rfl
    | none => simpa using ih

theorem extract_article_id_isSome (url : String) (ds : List Char)
    (h : PatOccurs url.data ds) : ∃ s, extract_article_id url = some s := by
  have hs := searchPat_complete url.data ds h
  unfold extract_article_id
  cases hq : searchPat url.data with
  | none => rw [hq] at hs; simp at hs
  | some ds0 => exact ⟨String.mk ds0, rfl⟩

/-- C5 (amended): extract_article_id returns a value exactly when the URL
contains an occurrence of /p/ followed by a nonempty digit run, .html and
then the end of the URL (possibly via a final newline) or a hash; the
returned string is the digit run of such an occurrence.  A URL of the bare
shape p-digits-.html without the surrounding /p/ path segment yields none
(see the counterexample). -/
theorem extract_article_id_characterization :
    (∀ (url s : String), extract_article_id url = some s →
        s.data ≠ [] ∧ s.data.all Char.isDigit ∧ PatOccurs url.data s.data)
    ∧ (∀ (url : String) (ds : List Char), PatOccurs url.data ds →
        ∃ s, extract_article_id url = some s)
    ∧ (∀ url : String, extract_article_id url = none → ∀ ds, ¬ PatOccurs url.data ds) := by
  refine ⟨?_, ?_, ?_⟩
  · intro url s h
    unfold extract_article_id at h
    cases hs : searchPat url.data with
    | none => rw [hs] at h; simp at h
    | some ds =>
      rw [hs] at h
      have hmk : String.mk ds = s := by simpa using h
      have hsd : s.data = ds := by rw [← hmk]
      rw [hsd]
      have hp := searchPat_sound _ _ hs
      obtain ⟨pre, suf, hl, hne, hdig, hsuf⟩ := hp
      exact ⟨hne, hdig, ⟨pre, suf, hl, hne, hdig, hsuf⟩⟩
  · intro url ds h
    exact extract_article_id_isSome url ds h
  · intro url h ds hp
    obtain ⟨s, hs⟩ := extract_article_id_isSome url ds hp
    rw [h] at hs
    exact absurd hs (by simp)

/-- C5 counterexample: this URL has the literal claim shape — a prefix,
then p, then digits 123, then .html at the end — yet extract_article_id
returns none rather than 123, because the compiled pattern demands a /p/
path segment before the digits. -/
theorem extract_article_id_shape_cex :
    ("https://x.com/p123.html".data =
        "https://x.com/".data ++ 'p' :: ("123".data ++ ".html".data))
    ∧ "123".data.all Char.isDigit
    ∧ "123".data ≠ []
    ∧ extract_article_id "https://x.com/p123.html" = none := by decide

/-- Witness: the amended characterization applied to a concrete URL of the
accepted form. -/
theorem extract_article_id_characterization_witness :
    ("77" : String).data ≠ [] ∧ ("77" : String).data.all Char.isDigit
      ∧ PatOccurs ("https://a/p/77.html" : String).data ("77" : String).data :=
  extract_article_id_characterization.1 "https://a/p/77.html" "77" (by decide)

theorem addNewLinks_nil (seen acc : List String) :
    addNewLinks (seen, acc) [] = (seen, acc) := rfl

theorem addNewLinks_cons (seen acc : List String) (u : String) (rest : List String) :
    addNewLinks (seen, acc) (u :: rest)
      = if u ∈ seen then addNewLinks (seen, acc) rest
        else addNewLinks (u :: seen, acc ++ [u]) rest := by
  simp only [addNewLinks, List.foldl_cons]
  by_cases h : u ∈ seen <;> simp [h]

theorem addNewLinks_spec (l : List String) (seen acc : List String) :
    (addNewLinks (seen, acc) l).2
      = acc ++ firstSeenDedup (l.filter (fun v => decide (v ∉ seen))) := by
  induction l generalizing seen acc with
  | nil => simp [addNewLinks_nil, firstSeenDedup]
  | cons u rest ih =>
    rw [addNewLinks_cons]
    by_cases h : u ∈ seen
    · rw [if_pos h, ih]
      have hf : (u :: rest).filter (fun v => decide (v ∉ seen))
          = rest.filter (fun v => decide (v ∉ seen)) := by
        rw [List.filter_cons]
        simp [h]
      rw [hf]
    · rw [if_neg h, ih]
      have hf : (u :: rest).filter (fun v => decide (v ∉ seen))
          = u :: rest.filter (fun v => decide (v ∉ seen)) := by
        rw [List.filter_cons]
        simp [h]
      rw [hf, firstSeenDedup]
      have hff : (rest.filter (fun v => decide (v ∉ seen))).filter (fun v => !(v == u))
          = rest.filter (fun v => decide (v ∉ u :: seen)) := by
        rw [List.filter_filter]
        refine List.filter_congr ?_
        intro v _
        by_cases hv : v = u
        · subst hv; simp
        · by_cases hvs : v ∈ seen <;> simp [hv, hvs]
      rw [← hff]
      simp [List.append_assoc]

theorem mem_firstSeenDedup_aux (u : String) (n : Nat) :
    ∀ l : List String, l.length ≤ n → (u ∈ firstSeenDedup l ↔ u ∈ l) := by
  induction n with
  | zero =>
    intro l hl
    have : l = [] := List.eq_nil_of_length_eq_zero (Nat.le_zero.mp hl)
    subst this
    simp [firstSeenDedup]
  | succ n ih =>
    intro l hl
    cases l with
    | nil => simp [firstSeenDedup]
    | cons v rest =>
      rw [firstSeenDedup]
      have hlen : (rest.filter (fun w => !(w == v))).length ≤ n := by
        have := List.length_filter_le (fun w => !(w == v)) rest
        simp only [List.length_cons] at hl
        omega
      constructor
      · intro h
        rcases List.mem_cons.mp h with h | h
        · exact h ▸ List.mem_cons_self v rest
        · have := (ih _ hlen).mp h
          have := List.mem_of_mem_filter this
          exact List.mem_cons_of_mem v this
      · intro h
        rcases List.mem_cons.mp h with h | h
        · exact h ▸ List.mem_cons_self v _
        · by_cases hv : u = v
          · exact hv ▸ List.mem_cons_self v _
          · refine List.mem_cons_of_mem v ?_
            refine (ih _ hlen).mpr ?_
            refine List.mem_filter.mpr ⟨h, ?_⟩
            simp [hv]

theorem mem_firstSeenDedup (u : String) (l : List String) :
    u ∈ firstSeenDedup l ↔ u ∈ l :=
  mem_firstSeenDedup_aux u l.length l (Nat.le_refl _)

theorem firstSeenDedup_nodup_aux (n : Nat) :
    ∀ l : List String, l.length ≤ n → (firstSeenDedup l).Nodup := by
  induction n with
  | zero =>
    intro l hl
    have : l = [] := List.eq_nil_of_length_eq_zero (Nat.le_zero.mp hl)
    subst this
    simp [firstSeenDedup]
  | succ n ih =>
    intro l hl
    cases l with
    | nil => simp [firstSeenDedup]
    | cons v rest =>
      rw [firstSeenDedup]
      have hlen : (rest.filter (fun w => !(w == v))).length ≤ n := by
        have := List.length_filter_le (fun w => !(w == v)) rest
        simp only [List.length_cons] at hl
        omega
      refine List.nodup_cons.mpr ⟨?_, ih _ hlen⟩
      intro hv
      have := (mem_firstSeenDedup v _).mp hv
      have := List.of_mem_filter this
      simp at this

theorem firstSeenDedup_nodup (l : List String) : (firstSeenDedup l).Nodup :=
  firstSeenDedup_nodup_aux l.length l (Nat.le_refl _)

/-- C1 (amended): over any visited page sequence, get_article_links
returns exactly the concatenated per-page candidates deduplicated by full
URL, keeping first occurrences in order; the result has no repeated URL,
and it holds a URL exactly when some page produced it.  Deduplication is by
URL string, not by article identifier, so two distinct URLs sharing an
identifier may both appear (see the counterexample). -/
theorem get_article_links_firstSeen_dedup (urljoin : String → String → String)
    (pages : List Page) :
    get_article_links urljoin pages
      = firstSeenDedup ((pages.map (pageLinks urljoin)).flatten)
    ∧ (get_article_links urljoin pages).Nodup
    ∧ (∀ u, u ∈ get_article_links urljoin pages ↔ ∃ p ∈ pages, u ∈ pageLinks urljoin p) := by
  have key : get_article_links urljoin pages
      = firstSeenDedup ((pages.map (pageLinks urljoin)).flatten) := by
    unfold get_article_links
    have h1 : pages.foldl (fun sa p => addNewLinks sa (pageLinks urljoin p)) ([], [])
        = ((pages.map (pageLinks urljoin)).flatten).foldl
            (fun sa u => if u ∈ sa.1 then sa else (u :: sa.1, sa.2 ++ [u])) ([], []) := by
      rw [List.foldl_flatten, List.foldl_map]
      rfl
    rw [h1]
    have h2 : ((pages.map (pageLinks urljoin)).flatten).foldl
        (fun sa u => if u ∈ sa.1 then sa else (u :: sa.1, sa.2 ++ [u])) ([], [])
        = addNewLinks ([], []) ((pages.map (pageLinks urljoin)).flatten) := rfl
    rw [h2, addNewLinks_spec]
    have h3 : ((pages.map (pageLinks urljoin)).flatten).filter
        (fun v => decide (v ∉ ([] : List String)))
        = (pages.map (pageLinks urljoin)).flatten := by
      refine List.filter_eq_self.mpr ?_
      intro a _
      simp
    rw [h3]
    simp
  refine ⟨key, ?_, ?_⟩
  · rw [key]; exact firstSeenDedup_nodup _
  · intro u
    rw [key, mem_firstSeenDedup, List.mem_flatten]
    constructor
    · rintro ⟨l, hl, hu⟩
      rcases List.mem_map.mp hl with ⟨p, hp, rfl⟩
      exact ⟨p, hp, hu⟩
    · rintro ⟨p, hp, hu⟩
      exact ⟨pageLinks urljoin p, List.mem_map_of_mem _ hp, hu⟩

/-- C1 counterexample: one listing page holding two distinct anchor URLs
that carry the same numeric article identifier 5 — both survive
deduplication, so the returned list repeats an identifier. -/
theorem get_article_links_dup_id_cex :
    (get_article_links (fun _ h => h)
        [⟨"https://www.cnblogs.com/u/tag/X/",
          ["https://www.cnblogs.com/u/p/5.html", "https://www.cnblogs.com/u/p/5.html#top"],
          []⟩]
      = ["https://www.cnblogs.com/u/p/5.html", "https://www.cnblogs.com/u/p/5.html#top"])
    ∧ extract_article_id "https://www.cnblogs.com/u/p/5.html" = some "5"
    ∧ extract_article_id "https://www.cnblogs.com/u/p/5.html#top" = some "5"
    ∧ ("https://www.cnblogs.com/u/p/5.html" : String) ≠ "https://www.cnblogs.com/u/p/5.html#top" := by
  decide

theorem toNat_ofNat_digit (d : Nat) (h : d < 10) :
    (Char.ofNat (48 + d)).toNat = 48 + d := by
  interval_cases d <;> decide

theorem valNat_decDigitsAux (fuel : Nat) :
    ∀ n : Nat, n ≤ fuel → valNat (decDigitsAux fuel n) = n := by
  induction fuel with
  | zero =>
    intro n hn
    have : n = 0 := Nat.le_zero.mp hn
    subst this
    simp [decDigitsAux, valNat]
  | succ fuel ih =>
    intro n hn
    by_cases h0 : n = 0
    · subst h0; simp [decDigitsAux, valNat]
    · have hdiv : n / 10 ≤ fuel := by
        have : n / 10 < n := Nat.div_lt_self (Nat.pos_of_ne_zero h0) (by omega)
        omega
      have hmod : n % 10 < 10 := Nat.mod_lt n (by omega)
      simp only [decDigitsAux, h0, if_false, valNat]
      rw [ih (n / 10) hdiv, toNat_ofNat_digit (n % 10) hmod]
      omega

theorem decRepr_injective : Function.Injective decRepr := by
  intro m n h
  unfold decRepr at h
  by_cases hm : m = 0 <;> by_cases hn : n = 0
  · omega
  · rw [if_pos hm, if_neg hn] at h
    have hrev : decDigitsAux n n = ['0'] := by
      have := congrArg List.reverse h
      simpa using this.symm
    have hv := valNat_decDigitsAux n n (Nat.le_refl n)
    rw [hrev] at hv
    simp [valNat] at hv
    omega
  · rw [if_neg hm, if_pos hn] at h
    have hrev : decDigitsAux m m = ['0'] := by
      have := congrArg List.reverse h
      simpa using this
    have hv := valNat_decDigitsAux m m (Nat.le_refl m)
    rw [hrev] at hv
    simp [valNat] at hv
    omega
  · rw [if_neg hm, if_neg hn] at h
    have hrev : decDigitsAux m m = decDigitsAux n n := by
      have := congrArg List.reverse h
      simpa using this
    have hvm := valNat_decDigitsAux m m (Nat.le_refl m)
    have hvn := valNat_decDigitsAux n n (Nat.le_refl n)
    rw [hrev, hvn] at hvm
    omega

theorem decRepr_ne_nil (n : Nat) : decRepr n ≠ [] := by
  unfold decRepr
  by_cases h : n = 0
  · simp [h]
  · rw [if_neg h]
    cases n with
    | zero => exact absurd rfl h
    | succ k =>
      simp only [decDigitsAux]
      simp

theorem mdCandidate_injective (base ext : List Char) :
    Function.Injective (mdCandidate base ext) := by
  intro i j h
  unfold mdCandidate at h
  by_cases hi : i = 0 <;> by_cases hj : j = 0
  · omega
  · rw [if_pos hi, if_neg hj] at h
    have := congrArg List.length h
    simp [List.length_append] at this
    omega
  · rw [if_neg hi, if_pos hj] at h
    have := congrArg List.length h
    simp [List.length_append] at this
    omega
  · rw [if_neg hi, if_neg hj] at h
    have h1 := List.append_cancel_left h
    simp only [List.cons.injEq, true_and] at h1
    have h2 := List.append_cancel_right h1
    exact decRepr_injective h2

theorem resolveAux_free (paths : List (List Char)) (base ext : List Char) :
    ∀ (fuel i : Nat), (∃ j, i ≤ j ∧ j < i + fuel + 1 ∧ mdCandidate base ext j ∉ paths) →
      resolveAux paths base ext fuel i ∉ paths
      ∧ ∃ k, resolveAux paths base ext fuel i = mdCandidate base ext k ∧ i ≤ k
          ∧ ∀ j, i ≤ j → j < k → mdCandidate base ext j ∈ paths := by
  intro fuel
  induction fuel with
  | zero =>
    intro i hj
    obtain ⟨j, hij, hlt, hfree⟩ := hj
    have hfree' : mdCandidate base ext i ∉ paths := by
      have hji : j = i := by omega
      exact hji ▸ hfree
    simp only [resolveAux]
    exact ⟨hfree', i, rfl, Nat.le_refl i, fun j' h1 h2 => absurd h2 (by omega)⟩
  | succ fuel ih =>
    intro i hj
    simp only [resolveAux]
    by_cases hmem : mdCandidate base ext i ∈ paths
    · rw [if_pos hmem]
      obtain ⟨j, hij, hlt, hfree⟩ := hj
      have hjne : j ≠ i := by
        intro he; subst he; exact hfree hmem
      have hrec := ih (i + 1) ⟨j, by omega, by omega, hfree⟩
      obtain ⟨hf, k, hk, hik, hmin⟩ := hrec
      refine ⟨hf, k, hk, by omega, ?_⟩
      intro j' h1 h2
      by_cases hji : j' = i
      · exact hji ▸ hmem
      · exact hmin j' (by omega) h2
    · rw [if_neg hmem]
      exact ⟨hmem, i, rfl, Nat.le_refl i, fun j h1 h2 => absurd h2 (by omega)⟩

theorem exists_free_candidate (paths : List (List Char)) (base ext : List Char) :
    ∃ j, j ≤ paths.length ∧ mdCandidate base ext j ∉ paths := by
  by_contra hcon
  push_neg at hcon
  have hsub : ((List.range (paths.length + 1)).map (mdCandidate base ext)) ⊆ paths := by
    intro x hx
    rcases List.mem_map.mp hx with ⟨j, hj, rfl⟩
    have hjle : j ≤ paths.length := by
      have := List.mem_range.mp hj
      omega
    exact hcon j hjle
  have hnd : ((List.range (paths.length + 1)).map (mdCandidate base ext)).Nodup :=
    (List.nodup_range _).map (mdCandidate_injective base ext)
  have hle := (hnd.subperm hsub).length_le
  simp at hle

theorem resolvePath_spec (paths : List (List Char)) (base ext : List Char) :
    resolvePath paths base ext ∉ paths
    ∧ ∃ k, resolvePath paths base ext = mdCandidate base ext k
        ∧ ∀ j, j < k → mdCandidate base ext j ∈ paths := by
  obtain ⟨j, hj, hfree⟩ := exists_free_candidate paths base ext
  have h := resolveAux_free paths base ext (paths.length + 1) 0
      ⟨j, Nat.zero_le _, by omega, hfree⟩
  obtain ⟨hf, k, hk, _, hmin⟩ := h
  exact ⟨hf, k, hk, fun j hjk => hmin j (Nat.zero_le _) hjk⟩

theorem fsPaths_cons (path content : List Char) (files : List (List Char × List Char)) :
    fsPaths ⟨(path, content) :: files⟩ = path :: fsPaths ⟨files⟩ := rfl

theorem readFile_cons_ne (files : List (List Char × List Char))
    (p path content : List Char) (h : path ≠ p) :
    readFile ⟨(path, content) :: files⟩ p = readFile ⟨files⟩ p := by
  simp only [readFile, List.find?]
  have : (path == p) = false := by
    simp [h]
  rw [this]

theorem readFile_cons_self (files : List (List Char × List Char)) (path content : List Char) :
    readFile ⟨(path, content) :: files⟩ path = some content := by
  simp only [readFile, List.find?]
  rw [show (path == path) = true by simp]
  rfl

/-- C6: save_article_to_markdown never overwrites — the chosen path is
fresh, all previously existing files keep their contents, the new content
is readable at the returned path, and the path is the first free member of
the incrementing-suffix candidate sequence; in particular two saves of the
same tag and title (with no prior collision) yield the original name and
then the same name with the " (1)" suffix, two distinct paths, with the
first file intact after the second save. -/
theorem save_article_to_markdown_collision_safe :
    (∀ (fs : FS) (root tagName title content : List Char) (aid : Option (List Char)),
      (save_article_to_markdown fs root tagName title content aid).2 ∉ fsPaths fs
      ∧ (∀ p, p ∈ fsPaths fs →
          readFile (save_article_to_markdown fs root tagName title content aid).1 p
            = readFile fs p)
      ∧ readFile (save_article_to_markdown fs root tagName title content aid).1
          (save_article_to_markdown fs root tagName title content aid).2 = some content
      ∧ (∃ k, (save_article_to_markdown fs root tagName title content aid).2
            = mdCandidate (articleBase root tagName title aid) mdExtL k
          ∧ ∀ j, j < k → mdCandidate (articleBase root tagName title aid) mdExtL j ∈ fsPaths fs))
    ∧ (∀ (fs : FS) (root tagName title c1 c2 : List Char) (aid : Option (List Char)),
        mdCandidate (articleBase root tagName title aid) mdExtL 0 ∉ fsPaths fs →
        mdCandidate (articleBase root tagName title aid) mdExtL 1 ∉ fsPaths fs →
        (save_article_to_markdown fs root tagName title c1 aid).2
            = articleBase root tagName title aid ++ mdExtL
        ∧ (save_article_to_markdown (save_article_to_markdown fs root tagName title c1 aid).1
              root tagName title c2 aid).2
            = articleBase root tagName title aid ++ ' ' :: '(' :: '1' :: ')' :: mdExtL
        ∧ (save_article_to_markdown fs root tagName title c1 aid).2
            ≠ (save_article_to_markdown (save_article_to_markdown fs root tagName title c1 aid).1
                root tagName title c2 aid).2
        ∧ readFile (save_article_to_markdown (save_article_to_markdown fs root tagName title c1 aid).1
              root tagName title c2 aid).1
            (save_article_to_markdown fs root tagName title c1 aid).2 = some c1) := by
  have hgen : ∀ (fs : FS) (root tagName title content : List Char) (aid : Option (List Char)),
      (save_article_to_markdown fs root tagName title content aid).2 ∉ fsPaths fs
      ∧ (∀ p, p ∈ fsPaths fs →
          readFile (save_article_to_markdown fs root tagName title content aid).1 p
            = readFile fs p)
      ∧ readFile (save_article_to_markdown fs root tagName title content aid).1
          (save_article_to_markdown fs root tagName title content aid).2 = some content
      ∧ (∃ k, (save_article_to_markdown fs root tagName title content aid).2
            = mdCandidate (articleBase root tagName title aid) mdExtL k
          ∧ ∀ j, j < k → mdCandidate (articleBase root tagName title aid) mdExtL j ∈ fsPaths fs) := by
    intro fs root tagName title content aid
    obtain ⟨hfree, k, hk, hmin⟩ :=
      resolvePath_spec (fsPaths fs) (articleBase root tagName title aid) mdExtL
    refine ⟨hfree, ?_, ?_, ⟨k, hk, hmin⟩⟩
    · intro p hp
      have hne : resolvePath (fsPaths fs) (articleBase root tagName title aid) mdExtL ≠ p := by
        intro he; exact hfree (he ▸ hp)
      cases fs with
      | mk files => exact readFile_cons_ne files p _ content hne
    · cases fs with
      | mk files => exact readFile_cons_self files _ content
  refine ⟨hgen, ?_⟩
  intro fs root tagName title c1 c2 aid h0 h1
  have hc0 : mdCandidate (articleBase root tagName title aid) mdExtL 0
      = articleBase root tagName title aid ++ mdExtL := rfl
  have hc1 : mdCandidate (articleBase root tagName title aid) mdExtL 1
      = articleBase root tagName title aid ++ ' ' :: '(' :: '1' :: ')' :: mdExtL := rfl
  have hp1 : (save_article_to_markdown fs root tagName title c1 aid).2
      = mdCandidate (articleBase root tagName title aid) mdExtL 0 := by
    show resolvePath (fsPaths fs) (articleBase root tagName title aid) mdExtL = _
    unfold resolvePath
    simp only [resolveAux]
    rw [if_neg h0]
  have hne01 : mdCandidate (articleBase root tagName title aid) mdExtL 0
      ≠ mdCandidate (articleBase root tagName title aid) mdExtL 1 := by
    intro he
    exact absurd (mdCandidate_injective _ _ he) (by omega)
  have hfs1 : (save_article_to_markdown fs root tagName title c1 aid).1.files
      = ((save_article_to_markdown fs root tagName title c1 aid).2, c1) :: fs.files := rfl
  have hpaths1 : fsPaths (save_article_to_markdown fs root tagName title c1 aid).1
      = mdCandidate (articleBase root tagName title aid) mdExtL 0 :: fsPaths fs := by
    cases fs with
    | mk files =>
      rw [show (save_article_to_markdown ⟨files⟩ root tagName title c1 aid).1
          = ⟨((save_article_to_markdown ⟨files⟩ root tagName title c1 aid).2, c1) :: files⟩ from rfl]
      rw [fsPaths_cons, hp1]
  have hp2 : (save_article_to_markdown (save_article_to_markdown fs root tagName title c1 aid).1
        root tagName title c2 aid).2
      = mdCandidate (articleBase root tagName title aid) mdExtL 1 := by
    show resolvePath (fsPaths (save_article_to_markdown fs root tagName title c1 aid).1)
        (articleBase root tagName title aid) mdExtL = _
    rw [hpaths1]
    unfold resolvePath
    simp only [List.length_cons, resolveAux]
    rw [if_pos (List.mem_cons_self _ _)]
    have hnotin : mdCandidate (articleBase root tagName title aid) mdExtL 1
        ∉ mdCandidate (articleBase root tagName title aid) mdExtL 0 :: fsPaths fs := by
      intro hmem
      rcases List.mem_cons.mp hmem with he | hmem2
      · exact hne01 he.symm
      · exact h1 hmem2
    rw [if_neg hnotin]
  refine ⟨by rw [hp1, hc0], by rw [hp2, hc1], by rw [hp1, hp2]; exact hne01, ?_⟩
  cases fs with
  | mk files =>
    rw [show (save_article_to_markdown (save_article_to_markdown ⟨files⟩ root tagName title c1 aid).1
        root tagName title c2 aid).1
        = ⟨((save_article_to_markdown (save_article_to_markdown ⟨files⟩ root tagName title c1 aid).1
            root tagName title c2 aid).2, c2)
          :: ((save_article_to_markdown ⟨files⟩ root tagName title c1 aid).2, c1) :: files⟩ from rfl]
    have hner : (save_article_to_markdown (save_article_to_markdown ⟨files⟩ root tagName title c1 aid).1
        root tagName title c2 aid).2
        ≠ (save_article_to_markdown ⟨files⟩ root tagName title c1 aid).2 := by
      rw [hp1, hp2]
      exact hne01.symm
    rw [readFile_cons_ne _ _ _ _ hner]
    exact readFile_cons_self _ _ _

/-- Witness: the two-save scenario of the collision theorem on an empty
tree with concrete tag, title and article id. -/
theorem save_article_to_markdown_collision_safe_witness :
    (save_article_to_markdown ⟨[]⟩ "R".data "T".data "t".data "c1".data (some "9".data)).2
        = articleBase "R".data "T".data "t".data (some "9".data) ++ mdExtL
    ∧ (save_article_to_markdown
          (save_article_to_markdown ⟨[]⟩ "R".data "T".data "t".data "c1".data (some "9".data)).1
          "R".data "T".data "t".data "c2".data (some "9".data)).2
        = articleBase "R".data "T".data "t".data (some "9".data)
            ++ ' ' :: '(' :: '1' :: ')' :: mdExtL
    ∧ (save_article_to_markdown ⟨[]⟩ "R".data "T".data "t".data "c1".data (some "9".data)).2
        ≠ (save_article_to_markdown
            (save_article_to_markdown ⟨[]⟩ "R".data "T".data "t".data "c1".data (some "9".data)).1
            "R".data "T".data "t".data "c2".data (some "9".data)).2
    ∧ readFile (save_article_to_markdown
          (save_article_to_markdown ⟨[]⟩ "R".data "T".data "t".data "c1".data (some "9".data)).1
          "R".data "T".data "t".data "c2".data (some "9".data)).1
        (save_article_to_markdown ⟨[]⟩ "R".data "T".data "t".data "c1".data (some "9".data)).2
        = some "c1".data :=
  save_article_to_markdown_collision_safe.2 ⟨[]⟩ "R".data "T".data "t".data "c1".data "c2".data
    (some "9".data) (by decide) (by decide)

theorem save_props (fs : FS) (root tagName title content : List Char)
    (aid : Option (List Char)) :
    (save_article_to_markdown fs root tagName title content aid).2 ∉ fsPaths fs
    ∧ fsPaths (save_article_to_markdown fs root tagName title content aid).1
        = (save_article_to_markdown fs root tagName title content aid).2 :: fsPaths fs
    ∧ readFile (save_article_to_markdown fs root tagName title content aid).1
        (save_article_to_markdown fs root tagName title content aid).2 = some content
    ∧ ∃ y, (save_article_to_markdown fs root tagName title content aid).2
        = articleBase root tagName title aid ++ y := by
  obtain ⟨hfree, k, hk, _⟩ :=
    resolvePath_spec (fsPaths fs) (articleBase root tagName title aid) mdExtL
  refine ⟨hfree, ?_, ?_, ?_⟩
  · cases fs with
    | mk files => rfl
  · cases fs with
    | mk files => exact readFile_cons_self files _ content
  · refine ⟨?_, ?_⟩
    case refine_1 =>
      exact if k = 0 then mdExtL else ' ' :: '(' :: (decRepr k ++ ')' :: mdExtL)
    case refine_2 =>
      show resolvePath (fsPaths fs) (articleBase root tagName title aid) mdExtL = _
      rw [hk]
      unfold mdCandidate
      by_cases h : k = 0 <;> simp [h]

theorem articleBase_suffix (root tagName title : List Char) (aid : Option (List Char)) :
    ∃ a, articleBase root tagName title aid = a ++ mdSuffix aid := by
  refine ⟨root ++ '/' :: (sanitizeL tagName ++ '/' ::
      (if sanitizeL title = [] then "untitled".data else sanitizeL title)), ?_⟩
  simp [articleBase, List.append_assoc]

/-- C2 (amended): the per-article step is resume-skipped exactly when
resume is enabled, a numeric article id was extracted from the URL, and
that id owns a done marker; a skip leaves the state untouched and consults
no external effect (no fetch, no write); a URL without an extractable id is
never resume-skipped — there is no resume-by-URL fallback. -/
theorem processOne_skip_iff (resume : Bool) (root tagName : List Char) (st : TagState)
    (url : String) (eff : ArticleEff) :
    ((processOne resume root tagName st url eff).2 = .skipped ↔
      resume = true ∧ ∃ id, extract_article_id url = some id ∧ id.data ∈ st.markers)
    ∧ ((processOne resume root tagName st url eff).2 = .skipped →
        (processOne resume root tagName st url eff).1 = st
        ∧ ∀ eff', processOne resume root tagName st url eff'
            = processOne resume root tagName st url eff)
    ∧ (extract_article_id url = none →
        (processOne resume root tagName st url eff).2 ≠ .skipped) := by
  have hhit : (markerHit st (extract_article_id url) = true) ↔
      ∃ id, extract_article_id url = some id ∧ id.data ∈ st.markers := by
    cases ha : extract_article_id url with
    | none => simp [markerHit]
    | some id =>
      simp only [markerHit]
      constructor
      · intro h
        exact ⟨id, rfl, by simpa using h⟩
      · rintro ⟨id', he, hm⟩
        have : id' = id := by
          simpa using he.symm
        subst this
        simpa using hm
  by_cases hc : (resume && markerHit st (extract_article_id url)) = true
  · have hres : processOne resume root tagName st url eff = (st, .skipped) := by
      unfold processOne
      rw [if_pos hc]
    have hc' := hc
    rw [Bool.and_eq_true] at hc'
    obtain ⟨hr, hm⟩ := hc'
    refine ⟨?_, ?_, ?_⟩
    · rw [hres]
      simp only [true_iff]
      exact ⟨hr, hhit.mp hm⟩
    · intro _
      rw [hres]
      refine ⟨rfl, ?_⟩
      intro eff'
      unfold processOne
      rw [if_pos hc]
    · intro hnone
      rw [hnone] at hm
      simp [markerHit] at hm
  · have hres2 : (processOne resume root tagName st url eff).2 ≠ .skipped := by
      unfold processOne
      rw [if_neg hc]
      cases eff.fetch with
      | fail => simp
      | ok title mdText =>
        by_cases hs : eff.saveOk = true <;> simp [hs]
    refine ⟨?_, ?_, ?_⟩
    · constructor
      · intro h; exact absurd h hres2
      · rintro ⟨hr, hex⟩
        exact absurd (show (resume && markerHit st (extract_article_id url)) = true by
          rw [Bool.and_eq_true]; exact ⟨hr, hhit.mpr hex⟩) hc
    · intro h; exact absurd h hres2
    · intro _; exact hres2

/-- Witness: a marked id with resume enabled is skipped and the state is
unchanged. -/
theorem processOne_skip_iff_witness :
    (processOne true "R".data "T".data ⟨["5".data], ⟨[]⟩⟩ "https://a/p/5.html"
        ⟨.ok "t".data "m".data, true⟩).1 = ⟨["5".data], ⟨[]⟩⟩ :=
  ((processOne_skip_iff true "R".data "T".data ⟨["5".data], ⟨[]⟩⟩ "https://a/p/5.html"
      ⟨.ok "t".data "m".data, true⟩).2.1 (by decide)).1

/-- C2 counterexample: an article URL with no extractable identifier, fully
processed once with resume enabled, is processed again on the second
encounter — result saved, a second file written — instead of being
resume-skipped by URL as the claim states. -/
theorem processOne_no_url_resume_cex :
    extract_article_id "https://www.cnblogs.com/u/about.html" = none
    ∧ (processOne true "R".data "T".data
        (processOne true "R".data "T".data ⟨[], ⟨[]⟩⟩ "https://www.cnblogs.com/u/about.html"
          ⟨.ok "t".data "m".data, true⟩).1
        "https://www.cnblogs.com/u/about.html" ⟨.ok "t".data "m".data, true⟩).2 = .saved
    ∧ (processOne true "R".data "T".data
        (processOne true "R".data "T".data ⟨[], ⟨[]⟩⟩ "https://www.cnblogs.com/u/about.html"
          ⟨.ok "t".data "m".data, true⟩).1
        "https://www.cnblogs.com/u/about.html"
        ⟨.ok "t".data "m".data, true⟩).1.fs.files.length = 2 := by
  decide

/-- C3: a done marker appears only together with a completed save — any id
marked by the step was either already marked, or the step ended saved with
the fetched markdown readable at a fresh path; a failing save (or fetch)
leaves markers and files untouched; and the invariant that every marker is
witnessed by a saved file carrying its id suffix is preserved. -/
theorem processOne_marker_after_save (resume : Bool) (root tagName : List Char)
    (st : TagState) (url : String) (eff : ArticleEff) :
    (∀ id, id ∈ ((processOne resume root tagName st url eff).1).markers →
        id ∈ st.markers ∨
        ((processOne resume root tagName st url eff).2 = .saved
          ∧ eff.saveOk = true
          ∧ ∃ title mdText, eff.fetch = .ok title mdText
            ∧ ∃ p, p ∉ fsPaths st.fs
                ∧ p ∈ fsPaths ((processOne resume root tagName st url eff).1).fs
                ∧ readFile ((processOne resume root tagName st url eff).1).fs p = some mdText))
    ∧ (eff.saveOk = false →
        ((processOne resume root tagName st url eff).1).markers = st.markers
        ∧ ((processOne resume root tagName st url eff).1).fs = st.fs)
    ∧ (eff.fetch = .fail → (processOne resume root tagName st url eff).1 = st)
    ∧ (MarkerInv st → MarkerInv ((processOne resume root tagName st url eff).1)) := by
  by_cases hc : (resume && markerHit st (extract_article_id url)) = true
  · have hres : processOne resume root tagName st url eff = (st, .skipped) := by
      unfold processOne
      rw [if_pos hc]
    rw [hres]
    exact ⟨fun id h => Or.inl h, fun _ => ⟨rfl, rfl⟩, fun _ => rfl, fun h => h⟩
  · cases hf : eff.fetch with
    | fail =>
      have hres : processOne resume root tagName st url eff = (st, .failed) := by
        unfold processOne
        rw [if_neg hc, hf]
      rw [hres]
      exact ⟨fun id h => Or.inl h, fun _ => ⟨rfl, rfl⟩, fun _ => rfl, fun h => h⟩
    | ok title mdText =>
      by_cases hs : eff.saveOk = true
      · have hres : processOne resume root tagName st url eff
            = (⟨match extract_article_id url with
                | some id => id.data :: st.markers
                | none => st.markers,
                (save_article_to_markdown st.fs root tagName title mdText
                  ((extract_article_id url).map String.data)).1⟩, .saved) := by
          unfold processOne
          rw [if_neg hc, hf]
          simp only [hs, if_true]
        obtain ⟨hfresh, hpaths, hread, y, hy⟩ :=
          save_props st.fs root tagName title mdText ((extract_article_id url).map String.data)
        refine ⟨?_, ?_, ?_, ?_⟩
        · intro id hid
          rw [hres] at hid
          simp only at hid
          have hcase : id ∈ st.markers ∨
              (∃ i0, extract_article_id url = some i0 ∧ id = i0.data) := by
            cases ha : extract_article_id url with
            | none => rw [ha] at hid; exact Or.inl hid
            | some i0 =>
              rw [ha] at hid
              rcases List.mem_cons.mp hid with h | h
              · exact Or.inr ⟨i0, rfl, h⟩
              · exact Or.inl h
          rcases hcase with h | ⟨i0, ha, hidv⟩
          · exact Or.inl h
          · right
            rw [hres]
            refine ⟨rfl, hs, title, mdText, rfl, ?_⟩
            refine ⟨(save_article_to_markdown st.fs root tagName title mdText
                ((extract_article_id url).map String.data)).2, hfresh, ?_, hread⟩
            rw [hpaths]
            exact List.mem_cons_self _ _
        · intro hsf
          rw [hs] at hsf
          exact absurd hsf (by simp)
        · intro hff
          simp at hff
        · intro hinv
          intro id hid
          rw [hres] at hid
          simp only at hid
          cases ha : extract_article_id url with
          | none =>
            rw [ha] at hid
            obtain ⟨p, hp, hinfix⟩ := hinv id hid
            refine ⟨p, ?_, hinfix⟩
            rw [hres]
            simp only
            rw [hpaths, ha]
            exact List.mem_cons_of_mem _ hp
          | some i0 =>
            rw [ha] at hid
            rcases List.mem_cons.mp hid with h | h
            · subst h
              refine ⟨(save_article_to_markdown st.fs root tagName title mdText
                  ((extract_article_id url).map String.data)).2, ?_, ?_⟩
              · rw [hres]
                simp only
                rw [hpaths]
                exact List.mem_cons_self _ _
              · obtain ⟨a, hab⟩ := articleBase_suffix root tagName title
                    ((extract_article_id url).map String.data)
                rw [hy, hab]
                refine ⟨a, y, ?_⟩
                rw [ha]
                simp [List.append_assoc]
            · obtain ⟨p, hp, hinfix⟩ := hinv id h
              refine ⟨p, ?_, hinfix⟩
              rw [hres]
              simp only
              rw [hpaths]
              exact List.mem_cons_of_mem _ hp
      · have hsf : eff.saveOk = false := by
          cases hv : eff.saveOk
          · rfl
          · exact absurd hv hs
        have hres : processOne resume root tagName st url eff = (st, .failed) := by
          unfold processOne
          rw [if_neg hc, hf]
          simp [hsf]
        rw [hres]
        exact ⟨fun id h => Or.inl h, fun _ => ⟨rfl, rfl⟩, fun _ => rfl, fun h => h⟩

/-- Witness: the saved case of the marker theorem on a fresh state and a
URL with identifier 5 — the id just marked is witnessed by the completed
save. -/
theorem processOne_marker_after_save_witness :
    "5".data ∈ (⟨[], ⟨[]⟩⟩ : TagState).markers ∨
      ((processOne true "R".data "T".data ⟨[], ⟨[]⟩⟩ "https://a/p/5.html"
          ⟨.ok "t".data "m".data, true⟩).2 = .saved
        ∧ (⟨.ok "t".data "m".data, true⟩ : ArticleEff).saveOk = true
        ∧ ∃ title mdText,
            (⟨.ok "t".data "m".data, true⟩ : ArticleEff).fetch = .ok title mdText
          ∧ ∃ p, p ∉ fsPaths (⟨[], ⟨[]⟩⟩ : TagState).fs
              ∧ p ∈ fsPaths ((processOne true "R".data "T".data ⟨[], ⟨[]⟩⟩ "https://a/p/5.html"
                  ⟨.ok "t".data "m".data, true⟩).1).fs
              ∧ readFile ((processOne true "R".data "T".data ⟨[], ⟨[]⟩⟩ "https://a/p/5.html"
                  ⟨.ok "t".data "m".data, true⟩).1).fs p = some mdText) :=
  (processOne_marker_after_save true "R".data "T".data ⟨[], ⟨[]⟩⟩ "https://a/p/5.html"
      ⟨.ok "t".data "m".data, true⟩).1 "5".data (by decide)

theorem crawl_single_tag_none_iff (resume : Bool) (root : List Char) (st0 : TagState)
    (job : TagJob) : crawl_single_tag resume root st0 job = none ↔ job.listing = none := by
  cases h : job.listing with
  | none => simp [crawl_single_tag, h]
  | some articles => simp [crawl_single_tag, h]

theorem runSeqTags_all_ok (resume : Bool) (root : List Char) (jobs : List TagJob)
    (hok : ∀ j ∈ jobs, j.listing ≠ none) :
    (runSeqTags resume root jobs).1 = jobs.map TagJob.name
    ∧ (runSeqTags resume root jobs).2 = none := by
  induction jobs with
  | nil => simp [runSeqTags]
  | cons j rest ih =>
    have hjl : j.listing ≠ none := hok j (List.mem_cons_self _ _)
    have hcs : crawl_single_tag resume root initTagState j ≠ none := by
      rw [Ne, crawl_single_tag_none_iff]
      exact hjl
    cases hc : crawl_single_tag resume root initTagState j with
    | none => exact absurd hc hcs
    | some st =>
      have ihr := ih (fun j' hj' => hok j' (List.mem_cons_of_mem _ hj'))
      simp only [runSeqTags, hc, List.map_cons]
      exact ⟨by rw [ihr.1], ihr.2⟩

theorem runSeqTags_first_fail (resume : Bool) (root : List Char) (pre : List TagJob)
    (jf : TagJob) (post : List TagJob) (hpre : ∀ j ∈ pre, j.listing ≠ none)
    (hfail : jf.listing = none) :
    (runSeqTags resume root (pre ++ jf :: post)).1 = pre.map TagJob.name ++ [jf.name]
    ∧ (runSeqTags resume root (pre ++ jf :: post)).2 = some jf.name := by
  induction pre with
  | nil =>
    have hcs : crawl_single_tag resume root initTagState jf = none :=
      (crawl_single_tag_none_iff resume root initTagState jf).mpr hfail
    simp [runSeqTags, hcs]
  | cons j rest ih =>
    have hjl : j.listing ≠ none := hpre j (List.mem_cons_self _ _)
    have hcs : crawl_single_tag resume root initTagState j ≠ none := by
      rw [Ne, crawl_single_tag_none_iff]
      exact hjl
    cases hc : crawl_single_tag resume root initTagState j with
    | none => exact absurd hc hcs
    | some st =>
      have ihr := ih (fun j' hj' => hpre j' (List.mem_cons_of_mem _ hj'))
      simp only [List.cons_append, runSeqTags, hc, List.map_cons, List.append_eq]
      exact ⟨by rw [ihr.1], ihr.2⟩

/-- C4 (amended): with more than one worker every discovered tag is
attempted and each tag failure is caught and logged at the tag level
without touching the others; but in the sequential mode (threads at most 1)
the per-tag loop has no handler, so the tags are processed in order only up
to the first one whose listing retrieval raises — that exception escapes
crawl_all and the remaining tags are never attempted. -/
theorem crawl_all_isolation (threads : Nat) (resume : Bool) (root : List Char)
    (jobs : List TagJob) :
    (1 < threads →
      (crawl_all threads resume root jobs).attempted = jobs.map TagJob.name
      ∧ (crawl_all threads resume root jobs).loggedTagFailures
          = (jobs.filter (tagJobFails resume root)).map TagJob.name
      ∧ (crawl_all threads resume root jobs).aborted = none)
    ∧ (threads ≤ 1 →
        ((∀ j ∈ jobs, j.listing ≠ none) →
          (crawl_all threads resume root jobs).attempted = jobs.map TagJob.name
          ∧ (crawl_all threads resume root jobs).aborted = none)
        ∧ (∀ pre jf post, jobs = pre ++ jf :: post → (∀ j ∈ pre, j.listing ≠ none) →
            jf.listing = none →
            (crawl_all threads resume root jobs).attempted
              = pre.map TagJob.name ++ [jf.name]
            ∧ (crawl_all threads resume root jobs).aborted = some jf.name)) := by
  constructor
  · intro ht
    have hc : ¬ threads ≤ 1 := by omega
    unfold crawl_all
    rw [if_neg hc]
    exact ⟨rfl, rfl, rfl⟩
  · intro ht
    have hseq : crawl_all threads resume root jobs
        = ⟨(runSeqTags resume root jobs).1, [], (runSeqTags resume root jobs).2⟩ := by
      unfold crawl_all
      rw [if_pos ht]
    constructor
    · intro hok
      have h := runSeqTags_all_ok resume root jobs hok
      rw [hseq]
      exact ⟨h.1, h.2⟩
    · intro pre jf post hjobs hpre hfail
      subst hjobs
      have h := runSeqTags_first_fail resume root pre jf post hpre hfail
      rw [hseq]
      exact ⟨h.1, h.2⟩

/-- Witness: the two sides of the isolation theorem at concrete inputs —
threaded mode attempts both tags; sequential mode with a failing first tag
attempts only it. -/
theorem crawl_all_isolation_witness :
    ((crawl_all 2 true "R".data [⟨"a".data, none⟩, ⟨"b".data, some []⟩]).attempted
        = ["a".data, "b".data]
      ∧ (crawl_all 2 true "R".data [⟨"a".data, none⟩, ⟨"b".data, some []⟩]).loggedTagFailures
        = ([⟨"a".data, none⟩, ⟨"b".data, some []⟩].filter (tagJobFails true "R".data)).map
            TagJob.name
      ∧ (crawl_all 2 true "R".data [⟨"a".data, none⟩, ⟨"b".data, some []⟩]).aborted = none)
    ∧ ((crawl_all 1 true "R".data [⟨"a".data, none⟩, ⟨"b".data, some []⟩]).attempted
        = ["a".data]
      ∧ (crawl_all 1 true "R".data [⟨"a".data, none⟩, ⟨"b".data, some []⟩]).aborted
        = some "a".data) :=
  ⟨(crawl_all_isolation 2 true "R".data [⟨"a".data, none⟩, ⟨"b".data, some []⟩]).1
      (by omega),
    by
      have h := ((crawl_all_isolation 1 true "R".data
          [⟨"a".data, none⟩, ⟨"b".data, some []⟩]).2 (by omega)).2
          [] ⟨"a".data, none⟩ [⟨"b".data, some []⟩] rfl (by intro j hj; simp at hj) rfl
      simpa using h⟩

/-- C4 counterexample: in the sequential mode (concurrency = 1) the first
tag's listing failure aborts the run before the second tag is attempted,
contradicting the claim that remaining tags are still processed. -/
theorem crawl_all_seq_abort_cex :
    (crawl_all 1 true "R".data [⟨"a".data, none⟩, ⟨"b".data, some []⟩]).attempted
      = ["a".data]
    ∧ "b".data ∉ (crawl_all 1 true "R".data
        [⟨"a".data, none⟩, ⟨"b".data, some []⟩]).attempted
    ∧ (crawl_all 1 true "R".data [⟨"a".data, none⟩, ⟨"b".data, some []⟩]).aborted
      = some "a".data
    ∧ (crawl_all 1 true "R".data [⟨"a".data, none⟩, ⟨"b".data, some []⟩]).loggedTagFailures
      = [] := by
  decide

/-- C8: per attempt, a transport failure or a status of at least 400 raises
the request error and a status below 400 returns the text; the call makes
between 1 and 3 attempts; every attempt before the final one failed with
the request error (only it is retried — any other error stops the loop at
once); the overall outcome is exactly the final attempt's outcome; an
early stop is never a request error; and a request-error result means all
three attempts raised it, the last one re-raised. -/
theorem http_get_retry_contract (oracle : Nat → AttemptOutcome) :
    (attemptGet .transportFail = .error .requestError)
    ∧ (∀ s t, 400 ≤ s → attemptGet (.ok s t) = .error .requestError)
    ∧ (∀ s t, s < 400 → attemptGet (.ok s t) = .ok t)
    ∧ 1 ≤ (http_get oracle).2 ∧ (http_get oracle).2 ≤ 3
    ∧ (http_get oracle).1 = attemptGet (oracle (http_get oracle).2)
    ∧ (∀ k, 1 ≤ k → k < (http_get oracle).2 →
        attemptGet (oracle k) = .error .requestError)
    ∧ ((http_get oracle).2 < 3 → (http_get oracle).1 ≠ .error .requestError)
    ∧ ((http_get oracle).1 = .error .requestError →
        ∀ k, 1 ≤ k → k ≤ 3 → attemptGet (oracle k) = .error .requestError) := by
  refine ⟨rfl, ?_, ?_, ?_⟩
  · intro s t h
    simp [attemptGet, h]
  · intro s t h
    have : ¬ 400 ≤ s := by omega
    simp [attemptGet, this]
  · have hmain : ∃ n, http_get oracle = (attemptGet (oracle n), n) ∧ 1 ≤ n ∧ n ≤ 3
        ∧ (∀ k, 1 ≤ k → k < n → attemptGet (oracle k) = .error .requestError)
        ∧ (n < 3 → attemptGet (oracle n) ≠ .error .requestError) := by
      cases h1 : attemptGet (oracle 1) with
      | ok t1 =>
        refine ⟨1, ?_, by omega, by omega, by intro k hk1 hk2; omega, by intro _; rw [h1]; simp⟩
        simp [http_get, retryAux, h1]
      | error e1 =>
        cases e1 with
        | programmingError =>
          refine ⟨1, ?_, by omega, by omega, by intro k hk1 hk2; omega,
            by intro _; rw [h1]; simp⟩
          simp [http_get, retryAux, h1]
        | requestError =>
          cases h2 : attemptGet (oracle 2) with
          | ok t2 =>
            refine ⟨2, ?_, by omega, by omega, ?_, by intro _; rw [h2]; simp⟩
            · simp [http_get, retryAux, h1, h2]
            · intro k hk1 hk2
              have : k = 1 := by omega
              rw [this]; exact h1
          | error e2 =>
            cases e2 with
            | programmingError =>
              refine ⟨2, ?_, by omega, by omega, ?_, by intro _; rw [h2]; simp⟩
              · simp [http_get, retryAux, h1, h2]
              · intro k hk1 hk2
                have : k = 1 := by omega
                rw [this]; exact h1
            | requestError =>
              refine ⟨3, ?_, by omega, by omega, ?_, by intro h; omega⟩
              · simp [http_get, retryAux, h1, h2]
              · intro k hk1 hk2
                have : k = 1 ∨ k = 2 := by omega
                rcases this with h | h
                · rw [h]; exact h1
                · rw [h]; exact h2
    obtain ⟨n, hg, hn1, hn3, hbefore, hstop⟩ := hmain
    rw [hg]
    refine ⟨hn1, hn3, rfl, hbefore, hstop, ?_⟩
    intro herr k hk1 hk3
    by_cases hkn : k < n
    · exact hbefore k hk1 hkn
    · have hn3' : n = 3 := by
        by_contra hne
        exact hstop (by omega) herr
      have : k = n := by omega
      rw [this]
      exact herr

/-- Witness: an oracle whose first two attempts raise the request error and
whose third succeeds — the contract instantiated concretely. -/
theorem http_get_retry_contract_witness :
    attemptGet (AttemptOutcome.transportFail) = .error .requestError
    ∧ attemptGet (.ok 404 "e".data) = .error .requestError
    ∧ attemptGet (.ok 200 "ok".data) = .ok "ok".data :=
  ⟨(http_get_retry_contract (fun _ => .transportFail)).1,
    (http_get_retry_contract (fun _ => .transportFail)).2.1 404 "e".data (by omega),
    (http_get_retry_contract (fun _ => .transportFail)).2.2.1 200 "ok".data (by omega)⟩

/-- C7: the conversion chain is total and tries the converters in order —
the primary ATX conversion's result when it succeeds, else the
default-options retry, else the flattened text, and the raw input HTML as
last resort; no failure escapes to the caller. -/
theorem html_to_markdown_fallback_chain (mdAtx mdDefault soupText : String → Option String)
    (html : String) :
    (∀ r, mdAtx html = some r → html_to_markdown mdAtx mdDefault soupText html = r)
    ∧ (∀ r, mdAtx html = none → mdDefault html = some r →
        html_to_markdown mdAtx mdDefault soupText html = r)
    ∧ (∀ r, mdAtx html = none → mdDefault html = none → soupText html = some r →
        html_to_markdown mdAtx mdDefault soupText html = r)
    ∧ (mdAtx html = none → mdDefault html = none → soupText html = none →
        html_to_markdown mdAtx mdDefault soupText html = html) := by
  refine ⟨?_, ?_, ?_, ?_⟩
  · intro r h
    simp [html_to_markdown, h]
  · intro r h1 h2
    simp [html_to_markdown, h1, h2]
  · intro r h1 h2 h3
    simp [html_to_markdown, h1, h2, h3]
  · intro h1 h2 h3
    simp [html_to_markdown, h1, h2, h3]

/-- Witness: all three converters failing on a concrete fragment returns
the raw input unchanged. -/
theorem html_to_markdown_fallback_chain_witness :
    html_to_markdown (fun _ => none) (fun _ => none) (fun _ => none) "<p>x</p>" = "<p>x</p>" :=
  (html_to_markdown_fallback_chain (fun _ => none) (fun _ => none) (fun _ => none)
      "<p>x</p>").2.2.2 rfl rfl rfl

/-- C10: resolution of the tag-index URL never raises — a read or JSON
parse failure of an existing override file yields the built-in default with
the warning logged, and a parse result that is not a dict carrying a truthy
base_tag_url yields the built-in default silently. -/
theorem resolve_base_tag_url_default (pyStrFn : JVal → String) :
    resolve_base_tag_url pyStrFn .readOrParseFail = (BASE_TAG_URL, true)
    ∧ (∀ v : JVal,
        (∀ es, v = .jdict es → ∀ w, dictGet es "base_tag_url" = some w → truthy w = false) →
        resolve_base_tag_url pyStrFn (.parsed v) = (BASE_TAG_URL, false))
    ∧ resolve_base_tag_url pyStrFn .noFile = (BASE_TAG_URL, false) := by
  refine ⟨rfl, ?_, rfl⟩
  intro v hv
  cases v with
  | jnull => rfl
  | jbool b => rfl
  | jnum n => rfl
  | jstr s => rfl
  | jarr xs => rfl
  | jdict es =>
    simp only [resolve_base_tag_url]
    cases hg : dictGet es "base_tag_url" with
    | none => rfl
    | some w =>
      have := hv es rfl w hg
      simp [this]

/-- Witness: a parsed override that is a plain string (not a dict) resolves
to the built-in default without a warning. -/
theorem resolve_base_tag_url_default_witness :
    resolve_base_tag_url (fun _ => "") (.parsed (.jstr "x")) = (BASE_TAG_URL, false) :=
  (resolve_base_tag_url_default (fun _ => "")).2.1 (.jstr "x")
    (fun es heq => absurd heq (by simp))

end ArticlesSpider
